import Mathlib

/-!
# Verification of `tools/efrotools/makefile.py`

A shallow embedding of the Makefile-parsing module.  Python strings are
modelled as `List Char` (`Str`), with `'\n'` as the line separator (the
module only ever produces and consumes `'\n'`-separated text).  Each
definition below carries a comment pointing at the Python construct it
embeds; machine text operations (`splitlines`, `strip`, `split`,
`replace('\\\n','')`, `'\n'.join`) are spelled out as executable functions
on `List Char`.
-/

/-- Python `str` modelled as a list of characters. -/
abbrev Str := List Char

/-- A string literal as a `Str`. -/
def str (s : String) : Str := s.data

/-- The ASCII whitespace characters recognised by Python's `str.strip()` /
`str.split()` (space, tab, newline, carriage return, vertical tab, form
feed). -/
def isSpace (c : Char) : Bool :=
  c = ' ' || c = '\t' || c = '\n' || c = '\r' || c = '\x0b' || c = '\x0c'

/-- Embeds Python `str.splitlines()` with `'\n'` as the separator:
`""` gives `[]`, a trailing newline does not produce a final empty line. -/
def pySplitlines : Str → List Str
  | [] => []
  | c :: s =>
    if c = '\n' then [] :: pySplitlines s
    else
      match pySplitlines s with
      | [] => [[c]]
      | l :: ls => (c :: l) :: ls

/-- Embeds Python `str.strip()`: drop leading and trailing whitespace. -/
def pyStrip (s : Str) : Str := (s.dropWhile isSpace).rdropWhile isSpace

/-- Embeds Python `'\n'.join(lines)`. -/
def joinNl : List Str → Str
  | [] => []
  | [l] => l
  | l :: ls => l ++ '\n' :: joinNl ls

/-- Embeds Python `contents.replace('\\\n', '')`: a single left-to-right
scan removing each (non-overlapping) occurrence of a backslash immediately
followed by a newline. -/
def removeContinuations : Str → Str
  | [] => []
  | [c] => [c]
  | c :: c' :: s =>
    if c = '\\' ∧ c' = '\n' then removeContinuations s
    else c :: removeContinuations (c' :: s)

/-- Helper for `pySplitWs`: `acc` is the token accumulated so far. -/
def pySplitWsAux : Str → Str → List Str
  | [], acc => if acc = [] then [] else [acc]
  | c :: s, acc =>
    if isSpace c then
      if acc = [] then pySplitWsAux s []
      else acc :: pySplitWsAux s []
    else pySplitWsAux s (acc ++ [c])

/-- Embeds Python `str.split()` (no argument): split on runs of whitespace,
never producing empty tokens. -/
def pySplitWs (s : Str) : List Str := pySplitWsAux s []

/-- Embeds Python `line.split('=')[0]`: the text before the first `'='`
(the whole line when it has no `'='`). -/
def splitEqHead (line : Str) : Str := line.takeWhile (fun c => c ≠ '=')

/-- Python `' ' * n` for an `int` `n` (empty when `n` is negative). -/
def spaces (n : Int) : Str := List.replicate n.toNat ' '

/-! ## The data model: `Paragraph`, `Section`, `Makefile` -/

/-- `class Paragraph`: a continuous set of non-blank lines. -/
structure Paragraph where
  contents : Str
deriving DecidableEq, Repr

/-- `Paragraph.get_logical_lines`:
`self.contents.replace('\\\n', '').splitlines()`. -/
def Paragraph.get_logical_lines (p : Paragraph) : List Str :=
  pySplitlines (removeContinuations p.contents)

/-- `class Section`: an optional name plus the section's paragraphs. -/
structure Section where
  name : Option Str
  paragraphs : List Paragraph
deriving DecidableEq, Repr

/-- `Makefile.header_line_full = '#' * 80`. -/
def header_line_full : Str := List.replicate 80 '#'

/-- `Makefile.header_line_empty = '#' + ' ' * 78 + '#'`. -/
def header_line_empty : Str := '#' :: (List.replicate 78 ' ' ++ ['#'])

/-- The paragraph-grouping loop of `Makefile.__init__`: accumulate
non-blank lines into `plines`, flush the buffer (when non-empty) at each
blank line and at the end of input. -/
def buildParagraphs : List Str → List Str → List Paragraph
  | [], plines => if plines = [] then [] else [⟨joinNl plines⟩]
  | line :: rest, plines =>
    if pyStrip line = [] then
      if plines = [] then buildParagraphs rest []
      else ⟨joinNl plines⟩ :: buildParagraphs rest []
    else buildParagraphs rest (plines ++ [line])

/-- The banner-header test of `Makefile.__init__`: exactly five lines
(`len(plines) == 5`), `plines[0]` and `plines[4]` the full rule,
`plines[1]` and `plines[3]` the empty banner line, `plines[2]` an 80-char
line starting and ending with `#`; when it matches yields the name
`plines[2][1:-1].strip()`. -/
def headerName (p : Paragraph) : Option Str :=
  let plines := pySplitlines p.contents
  if plines.length = 5 ∧ plines.getD 0 [] = header_line_full ∧
      plines.getD 1 [] = header_line_empty ∧ (plines.getD 2 []).length = 80 ∧
      (plines.getD 2 []).head? = some '#' ∧ (plines.getD 2 []).getLast? = some '#' ∧
      plines.getD 3 [] = header_line_empty ∧ plines.getD 4 [] = header_line_full then
    some (pyStrip (((plines.getD 2 []).drop 1).dropLast))
  else none

/-- The section-grouping loop of `Makefile.__init__`: `cur` is the current
section (appended to the result when a header starts the next one, or at
the end of input); ordinary paragraphs are appended to `cur`. -/
def buildSections : List Paragraph → Section → List Section
  | [], cur => [cur]
  | p :: ps, cur =>
    match headerName p with
    | some nm => cur :: buildSections ps ⟨some nm, []⟩
    | none => buildSections ps ⟨cur.name, cur.paragraphs ++ [p]⟩

/-- `class Makefile`: the section list plus the stored copy of the
original input (kept for reference only, never consulted). -/
structure Makefile where
  original : Str
  sections : List Section
deriving DecidableEq, Repr

/-- `Makefile.__init__(contents)`: split into lines, group into
paragraphs, then group paragraphs into sections starting from the unnamed
leading section. -/
def Makefile.init (contents : Str) : Makefile :=
  { original := contents
    sections := buildSections (buildParagraphs (pySplitlines contents) []) ⟨none, []⟩ }

/-- The per-line test of `Makefile.find_assigns`:
`line.split('=')[0].strip() == name`. -/
def assignLineMatch (name : Str) (line : Str) : Bool :=
  pyStrip (splitEqHead line) = name

/-- The per-paragraph test of `Makefile.find_assigns`:
`any(line.split('=')[0].strip() == name for line in ...)`. -/
def assignParMatch (name : Str) (p : Paragraph) : Bool :=
  p.get_logical_lines.any (assignLineMatch name)

/-- The inner `for i, paragraph in enumerate(section.paragraphs)` loop of
`Makefile.find_assigns`. -/
def findAssignsPars (name : Str) (sec : Section) (i : Nat) :
    List Paragraph → List (Section × Nat)
  | [] => []
  | p :: ps =>
    if assignParMatch name p then (sec, i) :: findAssignsPars name sec (i + 1) ps
    else findAssignsPars name sec (i + 1) ps

/-- The outer `for section in self.sections` loop of
`Makefile.find_assigns`. -/
def findAssignsSecs (name : Str) : List Section → List (Section × Nat)
  | [] => []
  | sec :: secs => findAssignsPars name sec 0 sec.paragraphs ++ findAssignsSecs name secs

/-- `Makefile.find_assigns(name)`. -/
def Makefile.find_assigns (m : Makefile) (name : Str) : List (Section × Nat) :=
  findAssignsSecs name m.sections

/-- The per-line test of `Makefile.find_targets`:
`line.split()[0] == name + ':'`.  `line.split()[0]` raises `IndexError`
on a whitespace-only line, modelled as `none`. -/
def targetLineMatch (name : Str) (line : Str) : Option Bool :=
  match pySplitWs line with
  | [] => none
  | t :: _ => some (t = name ++ [':'])

/-- Python's short-circuiting `any` over a generator whose elements may
raise: stops at the first `true`, fails at the first failing element
reached. -/
def anyOpt (f : α → Option Bool) : List α → Option Bool
  | [] => some false
  | x :: xs =>
    match f x with
    | none => none
    | some true => some true
    | some false => anyOpt f xs

/-- The inner loop of `Makefile.find_targets` (propagating a possible
`IndexError`). -/
def findTargetsPars (name : Str) (sec : Section) (i : Nat) :
    List Paragraph → Option (List (Section × Nat))
  | [] => some []
  | p :: ps =>
    match anyOpt (targetLineMatch name) p.get_logical_lines with
    | none => none
    | some b =>
      match findTargetsPars name sec (i + 1) ps with
      | none => none
      | some r => some (if b then (sec, i) :: r else r)

/-- The outer loop of `Makefile.find_targets`. -/
def findTargetsSecs (name : Str) : List Section → Option (List (Section × Nat))
  | [] => some []
  | sec :: secs =>
    match findTargetsPars name sec 0 sec.paragraphs with
    | none => none
    | some r =>
      match findTargetsSecs name secs with
      | none => none
      | some r' => some (r ++ r')

/-- `Makefile.find_targets(name)`; `none` models an uncaught
`IndexError`. -/
def Makefile.find_targets (m : Makefile) (name : Str) :
    Option (List (Section × Nat)) :=
  findTargetsSecs name m.sections

/-- The banner title line emitted by `Makefile.get_output` for a named
section: `'#' + ' ' * (spacelen // 2) + name` followed by
`' ' * (spacelen - spacelen // 2) + '#'` with `spacelen = 78 - len(name)`
(Python ints: `//` is floor division, `' ' * n` is empty for negative
`n`). -/
def titleLine (nm : Str) : Str :=
  '#' :: (spaces ((78 - (nm.length : Int)).fdiv 2) ++ nm ++
    spaces ((78 - (nm.length : Int)) - (78 - (nm.length : Int)).fdiv 2) ++ ['#'])

/-- The paragraph loop of `Makefile.get_output`: a blank separator line
before each paragraph except the first entry of the section, each
paragraph's contents followed by one newline. -/
def paragraphsOut (did : Bool) : List Paragraph → Str
  | [] => []
  | p :: ps =>
    (if did then ['\n'] else []) ++ p.contents ++ '\n' :: paragraphsOut true ps

/-- The per-section output of `Makefile.get_output`: a named section emits
two newlines and its five banner lines first (so `did_first_entry` starts
true for its paragraphs). -/
def sectionOut (sec : Section) : Str :=
  match sec.name with
  | none => paragraphsOut false sec.paragraphs
  | some nm =>
    '\n' :: '\n' :: (header_line_full ++ '\n' :: (header_line_empty ++ '\n' ::
      (titleLine nm ++ '\n' :: (header_line_empty ++ '\n' ::
        (header_line_full ++ '\n' :: paragraphsOut true sec.paragraphs)))))

/-- The section loop of `Makefile.get_output`. -/
def outputSections : List Section → Str
  | [] => []
  | sec :: secs => sectionOut sec ++ outputSections secs

/-- `Makefile.get_output()`. -/
def Makefile.get_output (m : Makefile) : Str :=
  outputSections m.sections


/-! ## Basic lemmas about the text primitives -/

theorem pySplitlines_cons_nl (s : Str) :
    pySplitlines ('\n' :: s) = [] :: pySplitlines s := by
  simp [pySplitlines]

theorem pySplitlines_cons_ne (c : Char) (s : Str) (hc : c ≠ '\n') :
    pySplitlines (c :: s) =
      match pySplitlines s with
      | [] => [[c]]
      | l :: ls => (c :: l) :: ls := by
  simp only [pySplitlines, if_neg hc]

/-- Members of `pySplitlines s` contain no newline. -/
theorem mem_pySplitlines_no_nl : ∀ (s : Str), ∀ l ∈ pySplitlines s, '\n' ∉ l := by
  intro s
  induction s with
  | nil => intro l hl; simp [pySplitlines] at hl
  | cons c s ih =>
    intro l hl
    by_cases hc : c = '\n'
    · subst hc
      rw [pySplitlines_cons_nl] at hl
      rcases List.mem_cons.mp hl with h | h
      · subst h; simp
      · exact ih l h
    · rw [pySplitlines_cons_ne c s hc] at hl
      rcases hsplit : pySplitlines s with _ | ⟨m, ms⟩ <;> rw [hsplit] at hl
      · simp only [List.mem_singleton] at hl
        subst hl
        simp only [List.mem_singleton]
        exact fun h => hc h.symm
      · rcases List.mem_cons.mp hl with h | h
        · subst h
          intro hmem
          rcases List.mem_cons.mp hmem with h' | h'
          · exact hc h'.symm
          · exact ih m (by rw [hsplit]; exact List.mem_cons_self m ms) h'
        · exact ih l (by rw [hsplit]; exact List.mem_cons_of_mem m h)

/-- Splitting text that starts with a newline-terminated newline-free
line. -/
theorem pySplitlines_append_nl (l s : Str) (h : '\n' ∉ l) :
    pySplitlines (l ++ '\n' :: s) = l :: pySplitlines s := by
  induction l with
  | nil => simpa using pySplitlines_cons_nl s
  | cons c l ih =>
    have hc : c ≠ '\n' := fun hc => h (hc ▸ List.mem_cons_self c l)
    have hl : '\n' ∉ l := fun hm => h (List.mem_cons_of_mem c hm)
    rw [List.cons_append, pySplitlines_cons_ne c _ hc, ih hl]

/-- A nonempty newline-free string is a single line. -/
theorem pySplitlines_no_nl (l : Str) (h : '\n' ∉ l) (hne : l ≠ []) :
    pySplitlines l = [l] := by
  induction l with
  | nil => exact absurd rfl hne
  | cons c l ih =>
    have hc : c ≠ '\n' := fun hc => h (hc ▸ List.mem_cons_self c l)
    have hl : '\n' ∉ l := fun hm => h (List.mem_cons_of_mem c hm)
    rw [pySplitlines_cons_ne c l hc]
    by_cases hn : l = []
    · subst hn; rfl
    · rw [ih hl hn]

/-- `joinNl` on a list with a nonempty tail. -/
theorem joinNl_cons (l : Str) (ls : List Str) (h : ls ≠ []) :
    joinNl (l :: ls) = l ++ '\n' :: joinNl ls := by
  cases ls with
  | nil => exact absurd rfl h
  | cons l' ls' => rfl

/-- `pySplitlines` inverts `joinNl` on lists of nonempty newline-free
lines. -/
theorem pySplitlines_joinNl : ∀ (ls : List Str),
    (∀ l ∈ ls, '\n' ∉ l ∧ l ≠ []) → pySplitlines (joinNl ls) = ls := by
  intro ls
  induction ls with
  | nil => intro _; rfl
  | cons l ls ih =>
    intro h
    have hl := h l (List.mem_cons_self l ls)
    cases ls with
    | nil => simpa [joinNl] using pySplitlines_no_nl l hl.1 hl.2
    | cons l' ls' =>
      rw [joinNl_cons l (l' :: ls') (by simp), pySplitlines_append_nl l _ hl.1,
        ih (fun x hx => h x (List.mem_cons_of_mem l hx))]

/-! ## Lemmas about `pyStrip` -/

theorem pyStrip_nil : pyStrip [] = [] := rfl

theorem rdropWhile_append_spaces (b : Nat) (x : Str) :
    (x ++ List.replicate b ' ').rdropWhile isSpace = x.rdropWhile isSpace := by
  induction b with
  | zero => simp
  | succ b ih =>
    rw [List.replicate_succ' , ← List.append_assoc]
    rw [List.rdropWhile_concat_pos isSpace (x ++ List.replicate b ' ') ' ' (by simp [isSpace])]
    exact ih

/-- Whitespace padding on both sides does not change `pyStrip`. -/
theorem pyStrip_spaces_around (a b : Nat) (s : Str) :
    pyStrip (List.replicate a ' ' ++ (s ++ List.replicate b ' ')) = pyStrip s := by
  unfold pyStrip
  rw [List.dropWhile_append_of_pos (by
    intro x hx
    have hx' := List.eq_of_mem_replicate hx
    simp [hx', isSpace])]
  rw [List.dropWhile_append]
  by_cases h : (s.dropWhile isSpace).isEmpty
  · rw [if_pos h, List.isEmpty_iff.mp h]
    simp [List.dropWhile_replicate, isSpace, List.rdropWhile]
  · rw [if_neg h]
    exact rdropWhile_append_spaces b _

/-- `pyStrip s = []` exactly when every character of `s` is whitespace. -/
theorem pyStrip_eq_nil_iff (s : Str) :
    pyStrip s = [] ↔ ∀ c ∈ s, isSpace c = true := by
  unfold pyStrip
  rw [List.rdropWhile_eq_nil_iff]
  constructor
  · intro h c hc
    have hsplit : c ∈ s.takeWhile isSpace ++ s.dropWhile isSpace := by
      rw [List.takeWhile_append_dropWhile]; exact hc
    rcases List.mem_append.mp hsplit with h1 | h1
    · exact List.mem_takeWhile_imp h1
    · exact h c h1
  · intro h c hc
    exact h c ((List.dropWhile_sublist (p := isSpace) (l := s)).mem hc)

/-- `pyStrip` is idempotent. -/
theorem pyStrip_idem (s : Str) : pyStrip (pyStrip s) = pyStrip s := by
  have hdrop : (pyStrip s).dropWhile isSpace = pyStrip s := by
    obtain ⟨u, hu⟩ := List.rdropWhile_prefix (p := isSpace) (l := s.dropWhile isSpace)
    rcases hcase : List.rdropWhile isSpace (s.dropWhile isSpace) with _ | ⟨c, rest⟩
    · simp [pyStrip, hcase]
    · have hl : s.dropWhile isSpace = c :: (rest ++ u) := by
        rw [← hu, hcase, List.cons_append]
      have hc : isSpace c = false := by
        have h0 := List.head?_dropWhile_not isSpace s
        rw [hl] at h0
        simpa using h0
      show List.dropWhile isSpace (pyStrip s) = pyStrip s
      rw [show pyStrip s = c :: rest from hcase]
      rw [List.dropWhile_cons, hc]
      simp
  show ((pyStrip s).dropWhile isSpace).rdropWhile isSpace = pyStrip s
  rw [hdrop]
  exact List.rdropWhile_idempotent isSpace (s.dropWhile isSpace)

/-! ## Lemmas about `removeContinuations` and logical lines -/

theorem removeContinuations_cons₂ (c c' : Char) (s : Str) :
    removeContinuations (c :: c' :: s) =
      if c = '\\' ∧ c' = '\n' then removeContinuations s
      else c :: removeContinuations (c' :: s) := by
  simp only [removeContinuations]

/-- A newline-free string has no continuation to remove. -/
theorem removeContinuations_no_nl (l : Str) (h : '\n' ∉ l) :
    removeContinuations l = l := by
  induction l with
  | nil => rfl
  | cons c ltail ih =>
    cases ltail with
    | nil => rfl
    | cons c' l' =>
      have hc' : c' ≠ '\n' := fun he =>
        h (by rw [← he] at *; exact List.mem_cons_of_mem c (List.mem_cons_self c' l'))
      rw [removeContinuations_cons₂, if_neg (by rintro ⟨h1, h2⟩; exact hc' h2),
        ih (fun hm => h (List.mem_cons_of_mem c hm))]

theorem removeContinuations_cons_nl (s : Str) :
    removeContinuations ('\n' :: s) = '\n' :: removeContinuations s := by
  cases s with
  | nil => rfl
  | cons c s' =>
    rw [removeContinuations_cons₂, if_neg (by rintro ⟨h1, _⟩; exact absurd h1 (by decide))]

/-- Removing continuations from `l ++ '\n' :: s` for a newline-free line
`l`: the junction newline disappears (with the backslash) exactly when `l`
ends in a backslash. -/
theorem removeContinuations_append_nl (l s : Str) (h : '\n' ∉ l) :
    removeContinuations (l ++ '\n' :: s) =
      if l.getLast? = some '\\' then l.dropLast ++ removeContinuations s
      else l ++ '\n' :: removeContinuations s := by
  induction l with
  | nil =>
    rw [List.nil_append, if_neg (by simp), removeContinuations_cons_nl, List.nil_append]
  | cons c ltail ih =>
    cases ltail with
    | nil =>
      rw [List.cons_append, List.nil_append, removeContinuations_cons₂]
      by_cases hc : c = '\\'
      · rw [if_pos ⟨hc, rfl⟩, show ([c] : Str).getLast? = some c from rfl,
          if_pos (by rw [hc]), show ([c] : Str).dropLast = [] from rfl, List.nil_append]
      · rw [if_neg (fun hand => hc hand.1), show ([c] : Str).getLast? = some c from rfl,
          if_neg (by simpa using hc), removeContinuations_cons_nl, List.cons_append,
          List.nil_append]
    | cons c' l' =>
      have hc' : c' ≠ '\n' := fun he =>
        h (by rw [← he] at *; exact List.mem_cons_of_mem c (List.mem_cons_self c' l'))
      have htail : '\n' ∉ c' :: l' := fun hm => h (List.mem_cons_of_mem c hm)
      rw [List.cons_append, List.cons_append, removeContinuations_cons₂,
        if_neg (by rintro ⟨h1, h2⟩; exact hc' h2), ← List.cons_append, ih htail,
        List.getLast?_cons_cons]
      by_cases hb : (c' :: l').getLast? = some '\\'
      · rw [if_pos hb, if_pos hb, List.dropLast_cons₂, List.cons_append]
      · rw [if_neg hb, if_neg hb, List.cons_append]
        simp

/-- Spec-side view of logical lines: a physical line ending in a backslash
is joined to the following line by exact concatenation with the backslash
dropped. -/
def logicalJoinSpec : List Str → List Str
  | [] => []
  | [l] => [l]
  | l :: l' :: rest =>
    if l.getLast? = some '\\' then
      match logicalJoinSpec (l' :: rest) with
      | [] => [l.dropLast]
      | m :: ms => (l.dropLast ++ m) :: ms
    else l :: logicalJoinSpec (l' :: rest)

theorem logicalJoinSpec_ne_nil (l : Str) (ls : List Str) :
    logicalJoinSpec (l :: ls) ≠ [] := by
  cases ls with
  | nil => simp [logicalJoinSpec]
  | cons l' rest =>
    simp only [logicalJoinSpec]
    by_cases hb : l.getLast? = some '\\'
    · rw [if_pos hb]
      rcases logicalJoinSpec (l' :: rest) with _ | ⟨m, ms⟩ <;> simp
    · rw [if_neg hb]; simp

/-- Prepending a newline-free prefix to text with at least one line. -/
theorem pySplitlines_prepend_ne (a : Str) (ha : '\n' ∉ a) (s m : Str) (ms : List Str)
    (hs : pySplitlines s = m :: ms) :
    pySplitlines (a ++ s) = (a ++ m) :: ms := by
  induction a with
  | nil => simpa using hs
  | cons c a ih =>
    have hc : c ≠ '\n' := fun hc => ha (hc ▸ List.mem_cons_self c a)
    rw [List.cons_append, pySplitlines_cons_ne c _ hc,
      ih (fun hm => ha (List.mem_cons_of_mem c hm))]
    rfl

/-- Core characterization: on newline-joined, nonempty, newline-free
physical lines, removing `'\\\n'` then splitting lines is exactly the
spec's join of continuation lines. -/
theorem removeContinuations_joinNl (ls : List Str)
    (h : ∀ l ∈ ls, '\n' ∉ l ∧ l ≠ []) :
    pySplitlines (removeContinuations (joinNl ls)) = logicalJoinSpec ls := by
  induction ls with
  | nil => rfl
  | cons l ls ih =>
    have hl := h l (List.mem_cons_self l ls)
    cases ls with
    | nil =>
      show pySplitlines (removeContinuations (joinNl [l])) = [l]
      rw [show joinNl [l] = l from rfl, removeContinuations_no_nl l hl.1]
      exact pySplitlines_no_nl l hl.1 hl.2
    | cons l' rest =>
      rw [joinNl_cons l (l' :: rest) (by simp),
        removeContinuations_append_nl l _ hl.1]
      have htail := ih (fun x hx => h x (List.mem_cons_of_mem l hx))
      by_cases hb : l.getLast? = some '\\'
      · rw [if_pos hb]
        rcases hj : logicalJoinSpec (l' :: rest) with _ | ⟨m, ms⟩
        · exact absurd hj (logicalJoinSpec_ne_nil l' rest)
        · have hnl : '\n' ∉ l.dropLast :=
            fun hm => hl.1 ((List.dropLast_sublist l).mem hm)
          rw [pySplitlines_prepend_ne l.dropLast hnl _ m ms (by rw [htail, hj])]
          simp only [logicalJoinSpec, if_pos hb, hj]
      · rw [if_neg hb, pySplitlines_append_nl l _ hl.1, htail]
        simp only [logicalJoinSpec, if_neg hb]

/-- Every logical line has one of the physical lines as a suffix. -/
theorem logicalJoinSpec_mem_suffix : ∀ (ls : List Str), ∀ L ∈ logicalJoinSpec ls,
    ∃ l ∈ ls, ∃ pre, L = pre ++ l := by
  intro ls
  induction ls with
  | nil => simp [logicalJoinSpec]
  | cons l ls ih =>
    intro L hL
    cases ls with
    | nil =>
      simp only [logicalJoinSpec, List.mem_singleton] at hL
      exact ⟨l, List.mem_cons_self l [], [], by rw [hL, List.nil_append]⟩
    | cons l' rest =>
      simp only [logicalJoinSpec] at hL
      by_cases hb : l.getLast? = some '\\'
      · rw [if_pos hb] at hL
        rcases hj : logicalJoinSpec (l' :: rest) with _ | ⟨m, ms⟩
        · exact absurd hj (logicalJoinSpec_ne_nil l' rest)
        · rw [hj] at hL
          rcases List.mem_cons.mp hL with h1 | h1
          · obtain ⟨x, hx, pre', hpre⟩ := ih m (by rw [hj]; exact List.mem_cons_self m ms)
            exact ⟨x, List.mem_cons_of_mem l hx, l.dropLast ++ pre', by
              rw [h1, hpre, List.append_assoc]⟩
          · obtain ⟨x, hx, pre, hpre⟩ := ih L (by rw [hj]; exact List.mem_cons_of_mem m h1)
            exact ⟨x, List.mem_cons_of_mem l hx, pre, hpre⟩
      · rw [if_neg hb] at hL
        rcases List.mem_cons.mp hL with h1 | h1
        · exact ⟨l, List.mem_cons_self l _, [], by rw [h1, List.nil_append]⟩
        · obtain ⟨x, hx, pre, hpre⟩ := ih L h1
          exact ⟨x, List.mem_cons_of_mem l hx, pre, hpre⟩

/-- A string with a non-blank suffix is non-blank. -/
theorem suffix_not_blank {L l pre : Str} (hL : L = pre ++ l) (h : pyStrip l ≠ []) :
    pyStrip L ≠ [] := by
  intro hc
  apply h
  rw [pyStrip_eq_nil_iff] at hc ⊢
  intro c hcl
  exact hc c (by rw [hL]; exact List.mem_append.mpr (Or.inr hcl))

/-- On non-blank newline-free physical lines, every logical line is
non-blank. -/
theorem logical_lines_not_blank (ls : List Str)
    (h : ∀ l ∈ ls, '\n' ∉ l ∧ pyStrip l ≠ []) :
    ∀ L ∈ pySplitlines (removeContinuations (joinNl ls)), pyStrip L ≠ [] := by
  have hne : ∀ l ∈ ls, l ≠ [] := by
    intro l hl hnil
    exact (h l hl).2 (by rw [hnil]; rfl)
  rw [removeContinuations_joinNl ls (fun l hl => ⟨(h l hl).1, hne l hl⟩)]
  intro L hL
  obtain ⟨l, hl, pre, hpre⟩ := logicalJoinSpec_mem_suffix ls L hL
  exact suffix_not_blank hpre (h l hl).2

/-! ## Lemmas about `pySplitWs` -/

theorem pySplitWsAux_eq_nil_iff : ∀ (s acc : Str),
    pySplitWsAux s acc = [] ↔ (∀ c ∈ s, isSpace c = true) ∧ acc = [] := by
  intro s
  induction s with
  | nil =>
    intro acc
    by_cases ha : acc = [] <;> simp [pySplitWsAux, ha]
  | cons c s ih =>
    intro acc
    simp only [pySplitWsAux]
    by_cases hc : isSpace c
    · rw [if_pos hc]
      by_cases ha : acc = []
      · rw [if_pos ha, ih []]
        simp [hc, ha]
      · rw [if_neg ha]
        simp [ha]
    · rw [if_neg hc, ih (acc ++ [c])]
      simp [hc]

/-- `str.split()` of a non-blank line is nonempty (so `split()[0]` cannot
raise). -/
theorem pySplitWs_ne_nil (line : Str) (h : pyStrip line ≠ []) :
    pySplitWs line ≠ [] := by
  intro hc
  apply h
  rw [pyStrip_eq_nil_iff]
  exact ((pySplitWsAux_eq_nil_iff line []).mp hc).1

/-! ## `unlines` and parsed-paragraph shape -/

/-- Each line followed by one newline: the overall shape of serialized
output. -/
def unlines : List Str → Str
  | [] => []
  | l :: ls => l ++ '\n' :: unlines ls

theorem unlines_append (a b : List Str) :
    unlines (a ++ b) = unlines a ++ unlines b := by
  induction a with
  | nil => rfl
  | cons l a ih => simp [unlines, ih]

theorem pySplitlines_unlines (ls : List Str) (h : ∀ l ∈ ls, '\n' ∉ l) :
    pySplitlines (unlines ls) = ls := by
  induction ls with
  | nil => rfl
  | cons l ls ih =>
    show pySplitlines (l ++ '\n' :: unlines ls) = l :: ls
    rw [pySplitlines_append_nl l _ (h l (List.mem_cons_self l ls)),
      ih (fun x hx => h x (List.mem_cons_of_mem l hx))]

theorem unlines_eq_joinNl (ls : List Str) (h : ls ≠ []) :
    unlines ls = joinNl ls ++ ['\n'] := by
  induction ls with
  | nil => exact absurd rfl h
  | cons l ls ih =>
    cases ls with
    | nil => rfl
    | cons l' rest =>
      show l ++ '\n' :: unlines (l' :: rest) = joinNl (l :: l' :: rest) ++ ['\n']
      rw [ih (by simp), joinNl_cons l (l' :: rest) (by simp)]
      simp

/-- A parsed paragraph: newline-joined, nonempty, non-blank physical
lines. -/
def GoodPar (p : Paragraph) : Prop :=
  ∃ pl : List Str, pl ≠ [] ∧ (∀ l ∈ pl, '\n' ∉ l ∧ pyStrip l ≠ []) ∧
    p.contents = joinNl pl

theorem GoodPar.lines {p : Paragraph} (h : GoodPar p) :
    pySplitlines p.contents ≠ [] ∧
    (∀ l ∈ pySplitlines p.contents, '\n' ∉ l ∧ pyStrip l ≠ []) ∧
    p.contents = joinNl (pySplitlines p.contents) := by
  obtain ⟨pl, hne, hl, hc⟩ := h
  have hsp : pySplitlines p.contents = pl := by
    rw [hc]
    exact pySplitlines_joinNl pl (fun l hml =>
      ⟨(hl l hml).1, fun hnil => (hl l hml).2 (by rw [hnil]; rfl)⟩)
  rw [hsp]
  exact ⟨hne, hl, hc⟩

/-! ## Lemmas about `buildParagraphs` -/

theorem buildParagraphs_nil (plines : List Str) :
    buildParagraphs [] plines = if plines = [] then [] else [⟨joinNl plines⟩] := rfl

theorem buildParagraphs_cons_nonblank (l : Str) (hl : pyStrip l ≠ []) (T plines : List Str) :
    buildParagraphs (l :: T) plines = buildParagraphs T (plines ++ [l]) := by
  simp only [buildParagraphs, if_neg hl]

theorem buildParagraphs_cons_blank (l : Str) (hl : pyStrip l = []) (T plines : List Str) :
    buildParagraphs (l :: T) plines =
      (if plines = [] then [] else [⟨joinNl plines⟩]) ++ buildParagraphs T [] := by
  simp only [buildParagraphs, if_pos hl]
  by_cases hp : plines = [] <;> simp [hp]

/-- A run of non-blank lines is shifted whole into the accumulator. -/
theorem buildParagraphs_block (block : List Str) (hb : ∀ l ∈ block, pyStrip l ≠ []) :
    ∀ (T plines : List Str),
      buildParagraphs (block ++ T) plines = buildParagraphs T (plines ++ block) := by
  induction block with
  | nil => intro T plines; simp
  | cons l block ih =>
    intro T plines
    rw [List.cons_append, buildParagraphs_cons_nonblank l (hb l (List.mem_cons_self l block)),
      ih (fun x hx => hb x (List.mem_cons_of_mem l hx)) T (plines ++ [l])]
    simp

/-- Every paragraph produced by the grouping loop is a `GoodPar`. -/
theorem buildParagraphs_good : ∀ (lines plines : List Str),
    (∀ l ∈ lines, '\n' ∉ l) →
    (∀ l ∈ plines, '\n' ∉ l ∧ pyStrip l ≠ []) →
    ∀ p ∈ buildParagraphs lines plines, GoodPar p := by
  intro lines
  induction lines with
  | nil =>
    intro plines _ hp p hmem
    rw [buildParagraphs_nil] at hmem
    by_cases h : plines = []
    · rw [if_pos h] at hmem; simp at hmem
    · rw [if_neg h] at hmem
      simp only [List.mem_singleton] at hmem
      subst hmem
      exact ⟨plines, h, hp, rfl⟩
  | cons l lines ih =>
    intro plines hln hp p hmem
    have hlnl : '\n' ∉ l := hln l (List.mem_cons_self _ _)
    have hlt : ∀ x ∈ lines, '\n' ∉ x := fun x hx => hln x (List.mem_cons_of_mem l hx)
    by_cases hb : pyStrip l = []
    · rw [buildParagraphs_cons_blank l hb] at hmem
      rcases List.mem_append.mp hmem with h1 | h1
      · by_cases h : plines = []
        · rw [if_pos h] at h1; simp at h1
        · rw [if_neg h] at h1
          simp only [List.mem_singleton] at h1
          subst h1
          exact ⟨plines, h, hp, rfl⟩
      · exact ih [] hlt (by simp) p h1
    · rw [buildParagraphs_cons_nonblank l hb] at hmem
      refine ih (plines ++ [l]) hlt ?_ p hmem
      intro x hx
      rcases List.mem_append.mp hx with h1 | h1
      · exact hp x h1
      · rw [List.mem_singleton] at h1
        subst h1
        exact ⟨hlnl, hb⟩

/-! ## Lemmas about `headerName` and the banner shape -/

theorem pyStrip_sublist (s : Str) : (pyStrip s).Sublist s := by
  unfold pyStrip
  obtain ⟨u, hu⟩ := List.rdropWhile_prefix (p := isSpace) (l := s.dropWhile isSpace)
  have h1 : ((s.dropWhile isSpace).rdropWhile isSpace).Sublist (s.dropWhile isSpace) := by
    conv_rhs => rw [← hu]
    exact List.sublist_append_left _ u
  exact h1.trans (List.dropWhile_sublist isSpace)

theorem pyStrip_length_le (s : Str) : (pyStrip s).length ≤ s.length :=
  (pyStrip_sublist s).length_le

/-- The well-formedness a section name acquires when it is extracted from
a banner title line: already stripped, at most 78 characters, and
newline-free. -/
def WFname (nm : Str) : Prop := pyStrip nm = nm ∧ nm.length ≤ 78 ∧ '\n' ∉ nm


theorem headerName_WFname {p : Paragraph} {nm : Str} (h : headerName p = some nm) :
    WFname nm := by
  unfold headerName at h
  set plines := pySplitlines p.contents with hpl
  by_cases hcond : plines.length = 5 ∧ plines.getD 0 [] = header_line_full ∧
      plines.getD 1 [] = header_line_empty ∧ (plines.getD 2 []).length = 80 ∧
      (plines.getD 2 []).head? = some '#' ∧ (plines.getD 2 []).getLast? = some '#' ∧
      plines.getD 3 [] = header_line_empty ∧ plines.getD 4 [] = header_line_full
  swap
  · rw [if_neg hcond] at h
    exact absurd h (by simp)
  rw [if_pos hcond] at h
  have hnm : nm = pyStrip (((plines.getD 2 []).drop 1).dropLast) := by
    injection h with h'
    exact h'.symm
  obtain ⟨hlen5, h0, h1, hlen, hh, hl, h3, h4⟩ := hcond
  refine ⟨by rw [hnm, pyStrip_idem], ?_, ?_⟩
  · rw [hnm]
    have hle := pyStrip_length_le (((plines.getD 2 []).drop 1).dropLast)
    have hint : (((plines.getD 2 []).drop 1).dropLast).length = 78 := by
      rw [List.length_dropLast, List.length_drop, hlen]
    omega
  · rw [hnm]
    intro hmem
    have h2mem : '\n' ∈ plines.getD 2 [] :=
      (List.drop_sublist 1 _).mem ((List.dropLast_sublist ((plines.getD 2 []).drop 1)).mem
        ((pyStrip_sublist _).mem hmem))
    have hmemlist : plines.getD 2 [] ∈ plines := by
      have h2lt : 2 < plines.length := by omega
      rw [List.getD_eq_getElem _ _ h2lt]
      exact List.getElem_mem h2lt
    exact mem_pySplitlines_no_nl p.contents _ (hpl ▸ hmemlist) h2mem

/-- The title line in `Nat` arithmetic, for names of at most 78
characters. -/
theorem titleLine_eq_nat (nm : Str) (h : nm.length ≤ 78) :
    titleLine nm = '#' :: (List.replicate ((78 - nm.length) / 2) ' ' ++ (nm ++
      (List.replicate (78 - nm.length - (78 - nm.length) / 2) ' ' ++ ['#']))) := by
  have hcast : (78 - (nm.length : Int)) = ((78 - nm.length : Nat) : Int) := by omega
  have h1 : (78 - (nm.length : Int)).fdiv 2 = (((78 - nm.length) / 2 : Nat) : Int) := by
    rw [hcast, show (2 : Int) = ((2 : Nat) : Int) from rfl, ← Int.ofNat_fdiv]
  have h2 : (78 - (nm.length : Int)) - (((78 - nm.length) / 2 : Nat) : Int)
      = ((78 - nm.length - (78 - nm.length) / 2 : Nat) : Int) := by
    omega
  unfold titleLine spaces
  rw [h1, h2]
  simp only [Int.toNat_ofNat, List.append_assoc]

theorem titleLine_length (nm : Str) (h : nm.length ≤ 78) :
    (titleLine nm).length = 80 := by
  rw [titleLine_eq_nat nm h]
  simp [List.length_replicate]
  omega

/-- The five banner lines `get_output` emits for a named section. -/
def bannerLines (nm : Str) : List Str :=
  [header_line_full, header_line_empty, titleLine nm, header_line_empty, header_line_full]

/-- The banner, as the paragraph a re-parse recovers. -/
def bannerPar (nm : Str) : Paragraph := ⟨joinNl (bannerLines nm)⟩

theorem bannerLines_no_nl (nm : Str) (h78 : nm.length ≤ 78) (h3 : '\n' ∉ nm) :
    ∀ l ∈ bannerLines nm, '\n' ∉ l ∧ l ≠ [] := by
  have hfull : '\n' ∉ header_line_full ∧ header_line_full ≠ ([] : Str) := by
    constructor
    · intro hm
      exact absurd (List.eq_of_mem_replicate hm) (by decide)
    · simp [header_line_full]
  have hempty : '\n' ∉ header_line_empty ∧ header_line_empty ≠ ([] : Str) := by
    constructor
    · intro hm
      rcases List.mem_cons.mp hm with h | h
      · exact absurd h (by decide)
      · rcases List.mem_append.mp h with h | h
        · exact absurd (List.eq_of_mem_replicate h) (by decide)
        · rw [List.mem_singleton] at h
          exact absurd h (by decide)
    · simp [header_line_empty]
  have htitle : '\n' ∉ titleLine nm ∧ titleLine nm ≠ [] := by
    rw [titleLine_eq_nat nm h78]
    constructor
    · intro hm
      rcases List.mem_cons.mp hm with h | h
      · exact absurd h (by decide)
      · rcases List.mem_append.mp h with h | h
        · exact absurd (List.eq_of_mem_replicate h) (by decide)
        · rcases List.mem_append.mp h with h | h
          · exact h3 h
          · rcases List.mem_append.mp h with h | h
            · exact absurd (List.eq_of_mem_replicate h) (by decide)
            · rw [List.mem_singleton] at h
              exact absurd h (by decide)
    · simp
  intro l hl
  simp only [bannerLines, List.mem_cons, List.not_mem_nil, or_false] at hl
  rcases hl with rfl | rfl | rfl | rfl | rfl
  · exact hfull
  · exact hempty
  · exact htitle
  · exact hempty
  · exact hfull

/-- Re-parsing recognises an emitted banner and recovers the name. -/
theorem headerName_bannerPar (nm : Str) (h1 : pyStrip nm = nm) (h2 : nm.length ≤ 78)
    (h3 : '\n' ∉ nm) : headerName (bannerPar nm) = some nm := by
  have hsp : pySplitlines (bannerPar nm).contents = bannerLines nm :=
    pySplitlines_joinNl (bannerLines nm) (bannerLines_no_nl nm h2 h3)
  have hget : ∀ (d : Str), (bannerLines nm).getD 2 d = titleLine nm := fun d => rfl
  have hhead : (titleLine nm).head? = some '#' := by
    rw [titleLine_eq_nat nm h2]
    rfl
  have hlast : (titleLine nm).getLast? = some '#' := by
    rw [titleLine_eq_nat nm h2]
    rw [show ('#' :: (List.replicate ((78 - nm.length) / 2) ' ' ++ (nm ++
        (List.replicate (78 - nm.length - (78 - nm.length) / 2) ' ' ++ ['#'])))) =
      ('#' :: (List.replicate ((78 - nm.length) / 2) ' ' ++ nm ++
        List.replicate (78 - nm.length - (78 - nm.length) / 2) ' ')) ++ ['#'] from by simp]
    exact List.getLast?_concat _
  have hdrop : (((bannerLines nm).getD 2 []).drop 1).dropLast =
      List.replicate ((78 - nm.length) / 2) ' ' ++ (nm ++
        List.replicate (78 - nm.length - (78 - nm.length) / 2) ' ') := by
    rw [hget, titleLine_eq_nat nm h2, List.drop_one, List.tail_cons]
    rw [show (List.replicate ((78 - nm.length) / 2) ' ' ++ (nm ++
        (List.replicate (78 - nm.length - (78 - nm.length) / 2) ' ' ++ ['#']))) =
      (List.replicate ((78 - nm.length) / 2) ' ' ++ (nm ++
        List.replicate (78 - nm.length - (78 - nm.length) / 2) ' ')) ++ ['#'] from by simp]
    exact List.dropLast_concat
  unfold headerName
  rw [hsp]
  rw [if_pos ⟨rfl, rfl, rfl, by rw [hget]; exact titleLine_length nm h2,
    by rw [hget]; exact hhead, by rw [hget]; exact hlast, rfl, rfl⟩]
  rw [hdrop, pyStrip_spaces_around, h1]

/-! ## Lemmas about `buildSections` -/

theorem buildSections_cons_header {b : Paragraph} {nm : Str} (h : headerName b = some nm)
    (ps : List Paragraph) (cur : Section) :
    buildSections (b :: ps) cur = cur :: buildSections ps ⟨some nm, []⟩ := by
  simp only [buildSections, h]

theorem buildSections_cons_ordinary {b : Paragraph} (h : headerName b = none)
    (ps : List Paragraph) (cur : Section) :
    buildSections (b :: ps) cur = buildSections ps ⟨cur.name, cur.paragraphs ++ [b]⟩ := by
  simp only [buildSections, h]

theorem buildSections_map_name : ∀ (ps : List Paragraph) (cur : Section),
    (buildSections ps cur).map Section.name =
      cur.name :: (ps.filterMap headerName).map some := by
  intro ps
  induction ps with
  | nil => intro cur; rfl
  | cons p ps ih =>
    intro cur
    rcases hh : headerName p with _ | nm
    · rw [buildSections_cons_ordinary hh, ih]
      simp [List.filterMap_cons, hh]
    · rw [buildSections_cons_header hh, List.map_cons, ih]
      simp [List.filterMap_cons, hh]

theorem buildSections_flatMap : ∀ (ps : List Paragraph) (cur : Section),
    (buildSections ps cur).flatMap Section.paragraphs =
      cur.paragraphs ++ ps.filter (fun p => (headerName p).isNone) := by
  intro ps
  induction ps with
  | nil => intro cur; simp [buildSections]
  | cons p ps ih =>
    intro cur
    rcases hh : headerName p with _ | nm
    · rw [buildSections_cons_ordinary hh, ih]
      simp [List.filter_cons, hh]
    · rw [buildSections_cons_header hh, List.flatMap_cons, ih]
      simp [List.filter_cons, hh]

theorem buildSections_mem_par : ∀ (ps : List Paragraph) (cur : Section) (sec : Section),
    sec ∈ buildSections ps cur → ∀ q ∈ sec.paragraphs,
      q ∈ cur.paragraphs ∨ (q ∈ ps ∧ headerName q = none) := by
  intro ps
  induction ps with
  | nil =>
    intro cur sec hsec q hq
    simp only [buildSections, List.mem_singleton] at hsec
    subst hsec
    exact Or.inl hq
  | cons p ps ih =>
    intro cur sec hsec q hq
    rcases hh : headerName p with _ | nm
    · rw [buildSections_cons_ordinary hh] at hsec
      rcases ih _ sec hsec q hq with h1 | h1
      · rcases List.mem_append.mp h1 with h2 | h2
        · exact Or.inl h2
        · rw [List.mem_singleton] at h2
          subst h2
          exact Or.inr ⟨List.mem_cons_self _ _, hh⟩
      · exact Or.inr ⟨List.mem_cons_of_mem p h1.1, h1.2⟩
    · rw [buildSections_cons_header hh] at hsec
      rcases List.mem_cons.mp hsec with h1 | h1
      · subst h1
        exact Or.inl hq
      · rcases ih _ sec h1 q hq with h2 | h2
        · simp at h2
        · exact Or.inr ⟨List.mem_cons_of_mem p h2.1, h2.2⟩

theorem buildSections_append_ordinary : ∀ (ps : List Paragraph),
    (∀ p ∈ ps, headerName p = none) → ∀ (rest : List Paragraph) (cur : Section),
    buildSections (ps ++ rest) cur = buildSections rest ⟨cur.name, cur.paragraphs ++ ps⟩ := by
  intro ps
  induction ps with
  | nil => intro _ rest cur; simp
  | cons p ps ih =>
    intro h rest cur
    rw [List.cons_append, buildSections_cons_ordinary (h p (List.mem_cons_self _ _)),
      ih (fun x hx => h x (List.mem_cons_of_mem p hx)) rest _]
    simp

theorem buildSections_ne_nil (ps : List Paragraph) (cur : Section) :
    buildSections ps cur ≠ [] := by
  induction ps generalizing cur with
  | nil => simp [buildSections]
  | cons p ps ih =>
    rcases hh : headerName p with _ | nm
    · rw [buildSections_cons_ordinary hh]
      exact ih _
    · rw [buildSections_cons_header hh]
      simp

/-! ## Well-formed `Makefile` values -/

/-- What parsing always produces: a leading unnamed section, named later
sections with well-formed names, and only good non-header paragraphs. -/
def WF (m : Makefile) : Prop :=
  ∃ s0 rest, m.sections = s0 :: rest ∧ s0.name = none ∧
    (∀ sec ∈ rest, ∃ nm, sec.name = some nm ∧ WFname nm) ∧
    (∀ sec ∈ m.sections, ∀ p ∈ sec.paragraphs, GoodPar p ∧ headerName p = none)

/-- Every parsed `Makefile` is well-formed. -/
theorem WF_init (T : Str) : WF (Makefile.init T) := by
  have hsecs : (Makefile.init T).sections =
      buildSections (buildParagraphs (pySplitlines T) []) ⟨none, []⟩ := rfl
  set ps := buildParagraphs (pySplitlines T) [] with hps
  have hgood : ∀ p ∈ ps, GoodPar p :=
    buildParagraphs_good (pySplitlines T) [] (mem_pySplitlines_no_nl T) (by simp)
  rcases hbs : buildSections ps ⟨none, []⟩ with _ | ⟨s0, rest⟩
  · exact absurd hbs (buildSections_ne_nil ps _)
  have hmn := buildSections_map_name ps ⟨none, []⟩
  rw [hbs] at hmn
  simp only [List.map_cons] at hmn
  have hs0 : s0.name = none := by
    have := congrArg List.head? hmn
    simpa using this
  have htail : rest.map Section.name = ((ps.filterMap headerName).map some) := by
    have := congrArg List.tail hmn
    simpa using this
  refine ⟨s0, rest, by rw [hsecs, hbs], hs0, ?_, ?_⟩
  · intro sec hsec
    have hnm_mem : sec.name ∈ (ps.filterMap headerName).map some := by
      rw [← htail]
      exact List.mem_map_of_mem Section.name hsec
    rcases List.mem_map.mp hnm_mem with ⟨nm, hnm1, hnm2⟩
    rcases List.mem_filterMap.mp hnm1 with ⟨q, _, hq2⟩
    exact ⟨nm, hnm2.symm, headerName_WFname hq2⟩
  · intro sec hsec p hp
    rw [hsecs, hbs] at hsec
    have horigin := buildSections_mem_par ps ⟨none, []⟩ sec (by rw [hbs]; exact hsec) p hp
    rcases horigin with h1 | h1
    · simp at h1
    · exact ⟨hgood p h1.1, h1.2⟩

/-! ## The line structure of `get_output` -/

/-- Per-paragraph output lines: a blank separator then the paragraph's
physical lines. -/
def parBlockLines (ps : List Paragraph) : List Str :=
  ps.flatMap (fun q => [] :: pySplitlines q.contents)

/-- The lines of a section's paragraph block when no entry was emitted
yet: no separator before the first paragraph. -/
def firstLines : List Paragraph → List Str
  | [] => []
  | p :: rest => pySplitlines p.contents ++ parBlockLines rest

/-- The output lines of one section. -/
def secLines (sec : Section) : List Str :=
  match sec.name with
  | none => firstLines sec.paragraphs
  | some nm => [] :: [] :: header_line_full :: header_line_empty :: titleLine nm ::
      header_line_empty :: header_line_full :: parBlockLines sec.paragraphs

/-- The paragraphs a re-parse recovers from one section's lines. -/
def specParas (sec : Section) : List Paragraph :=
  match sec.name with
  | some nm => bannerPar nm :: sec.paragraphs
  | none => sec.paragraphs

theorem GoodPar.unlines_lines {p : Paragraph} (h : GoodPar p) :
    unlines (pySplitlines p.contents) = p.contents ++ ['\n'] := by
  obtain ⟨hne, _, hjoin⟩ := h.lines
  rw [unlines_eq_joinNl _ hne, ← hjoin]

theorem paragraphsOut_true (ps : List Paragraph) (h : ∀ p ∈ ps, GoodPar p) :
    paragraphsOut true ps = unlines (parBlockLines ps) := by
  induction ps with
  | nil => rfl
  | cons p ps ih =>
    have hp := h p (List.mem_cons_self p ps)
    show (if true then ['\n'] else []) ++ p.contents ++ '\n' :: paragraphsOut true ps = _
    rw [if_pos rfl, ih (fun x hx => h x (List.mem_cons_of_mem p hx))]
    rw [show parBlockLines (p :: ps) = ([] :: pySplitlines p.contents) ++ parBlockLines ps
      from by simp [parBlockLines]]
    rw [unlines_append]
    rw [show unlines ([] :: pySplitlines p.contents) = '\n' :: unlines (pySplitlines p.contents)
      from rfl]
    rw [hp.unlines_lines]
    simp

theorem paragraphsOut_false (ps : List Paragraph) (h : ∀ p ∈ ps, GoodPar p) :
    paragraphsOut false ps = unlines (firstLines ps) := by
  cases ps with
  | nil => rfl
  | cons p rest =>
    have hp := h p (List.mem_cons_self p rest)
    show (if false then ['\n'] else []) ++ p.contents ++ '\n' :: paragraphsOut true rest = _
    rw [if_neg (by simp), paragraphsOut_true rest (fun x hx => h x (List.mem_cons_of_mem p hx))]
    show p.contents ++ '\n' :: unlines (parBlockLines rest) = _
    rw [show firstLines (p :: rest) = pySplitlines p.contents ++ parBlockLines rest from rfl]
    rw [unlines_append, hp.unlines_lines]
    simp

theorem sectionOut_eq (sec : Section) (h : ∀ p ∈ sec.paragraphs, GoodPar p) :
    sectionOut sec = unlines (secLines sec) := by
  rcases hname : sec.name with _ | nm
  · rw [show sectionOut sec = paragraphsOut false sec.paragraphs from by
      simp [sectionOut, hname]]
    rw [show secLines sec = firstLines sec.paragraphs from by simp [secLines, hname]]
    exact paragraphsOut_false _ h
  · rw [show sectionOut sec = '\n' :: '\n' :: (header_line_full ++ '\n' ::
      (header_line_empty ++ '\n' :: (titleLine nm ++ '\n' :: (header_line_empty ++ '\n' ::
        (header_line_full ++ '\n' :: paragraphsOut true sec.paragraphs))))) from by
      simp [sectionOut, hname]]
    rw [show secLines sec = [] :: [] :: header_line_full :: header_line_empty :: titleLine nm ::
      header_line_empty :: header_line_full :: parBlockLines sec.paragraphs from by
      simp [secLines, hname]]
    rw [paragraphsOut_true _ h]
    simp [unlines]

theorem outputSections_eq (secs : List Section)
    (h : ∀ sec ∈ secs, ∀ p ∈ sec.paragraphs, GoodPar p) :
    outputSections secs = unlines (secs.flatMap secLines) := by
  induction secs with
  | nil => rfl
  | cons sec secs ih =>
    show sectionOut sec ++ outputSections secs = _
    rw [List.flatMap_cons, unlines_append, sectionOut_eq sec (h sec (List.mem_cons_self _ _)),
      ih (fun x hx => h x (List.mem_cons_of_mem sec hx))]

theorem parBlockLines_no_nl (ps : List Paragraph) :
    ∀ l ∈ parBlockLines ps, '\n' ∉ l := by
  intro l hl
  rcases List.mem_flatMap.mp hl with ⟨q, _, hq⟩
  rcases List.mem_cons.mp hq with h1 | h1
  · subst h1; simp
  · exact mem_pySplitlines_no_nl q.contents l h1

theorem firstLines_no_nl (ps : List Paragraph) :
    ∀ l ∈ firstLines ps, '\n' ∉ l := by
  cases ps with
  | nil => simp [firstLines]
  | cons p rest =>
    intro l hl
    rcases List.mem_append.mp hl with h1 | h1
    · exact mem_pySplitlines_no_nl p.contents l h1
    · exact parBlockLines_no_nl rest l h1

theorem titleLine_no_nl (nm : Str) (h : '\n' ∉ nm) : '\n' ∉ titleLine nm := by
  unfold titleLine spaces
  intro hm
  rcases List.mem_cons.mp hm with h1 | h1
  · exact absurd h1 (by decide)
  · rcases List.mem_append.mp h1 with h2 | h2
    · rcases List.mem_append.mp h2 with h3 | h3
      · rcases List.mem_append.mp h3 with h4 | h4
        · exact absurd (List.eq_of_mem_replicate h4) (by decide)
        · exact h h4
      · exact absurd (List.eq_of_mem_replicate h3) (by decide)
    · rw [List.mem_singleton] at h2
      exact absurd h2 (by decide)

theorem secLines_no_nl (sec : Section)
    (hn : ∀ nm, sec.name = some nm → '\n' ∉ nm) :
    ∀ l ∈ secLines sec, '\n' ∉ l := by
  rcases hname : sec.name with _ | nm
  · rw [show secLines sec = firstLines sec.paragraphs from by simp [secLines, hname]]
    exact firstLines_no_nl sec.paragraphs
  · rw [show secLines sec = [] :: [] :: header_line_full :: header_line_empty :: titleLine nm ::
      header_line_empty :: header_line_full :: parBlockLines sec.paragraphs from by
      simp [secLines, hname]]
    intro l hl
    have hfull : '\n' ∉ header_line_full := fun hm =>
      absurd (List.eq_of_mem_replicate hm) (by decide)
    have hempty : '\n' ∉ header_line_empty := by
      intro hm
      rcases List.mem_cons.mp hm with h1 | h1
      · exact absurd h1 (by decide)
      · rcases List.mem_append.mp h1 with h2 | h2
        · exact absurd (List.eq_of_mem_replicate h2) (by decide)
        · rw [List.mem_singleton] at h2
          exact absurd h2 (by decide)
    rcases List.mem_cons.mp hl with rfl | hl
    · simp
    rcases List.mem_cons.mp hl with rfl | hl
    · simp
    rcases List.mem_cons.mp hl with rfl | hl
    · exact hfull
    rcases List.mem_cons.mp hl with rfl | hl
    · exact hempty
    rcases List.mem_cons.mp hl with rfl | hl
    · exact titleLine_no_nl nm (hn nm hname)
    rcases List.mem_cons.mp hl with rfl | hl
    · exact hempty
    rcases List.mem_cons.mp hl with rfl | hl
    · exact hfull
    exact parBlockLines_no_nl sec.paragraphs l hl

/-! ## Re-parsing the output: paragraph recovery -/

theorem bannerLines_not_blank (nm : Str) (h78 : nm.length ≤ 78) :
    ∀ l ∈ bannerLines nm, pyStrip l ≠ [] := by
  intro l hl hstrip
  rw [pyStrip_eq_nil_iff] at hstrip
  have hmem : '#' ∈ l := by
    simp only [bannerLines, List.mem_cons, List.not_mem_nil, or_false] at hl
    rcases hl with rfl | rfl | rfl | rfl | rfl
    · exact List.mem_replicate.mpr ⟨by decide, rfl⟩
    · exact List.mem_cons_self _ _
    · rw [titleLine_eq_nat nm h78]
      exact List.mem_cons_self _ _
    · exact List.mem_cons_self _ _
    · exact List.mem_replicate.mpr ⟨by decide, rfl⟩
  exact absurd (hstrip '#' hmem) (by decide)

/-- Re-grouping a paragraph block: each blank separator flushes the
accumulator and each paragraph's lines are recovered whole. -/
theorem bp_parBlock : ∀ (ps : List Paragraph), (∀ p ∈ ps, GoodPar p) →
    ∀ (T acc : List Str), (T = [] ∨ ∃ T', T = [] :: T') →
    buildParagraphs (parBlockLines ps ++ T) acc =
      (if acc = [] then [] else [⟨joinNl acc⟩]) ++ ps ++ buildParagraphs T [] := by
  intro ps
  induction ps with
  | nil =>
    intro _ T acc hT
    simp only [parBlockLines, List.flatMap_nil, List.nil_append]
    rcases hT with rfl | ⟨T', rfl⟩
    · rw [buildParagraphs_nil]
      simp [buildParagraphs_nil]
    · rw [buildParagraphs_cons_blank [] rfl]
      rw [buildParagraphs_cons_blank [] rfl]
      simp
  | cons q ps ih =>
    intro hgood T acc hT
    obtain ⟨hlines_ne, hlines, hjoin⟩ := (hgood q (List.mem_cons_self _ _)).lines
    rw [show parBlockLines (q :: ps) = [] :: (pySplitlines q.contents ++ parBlockLines ps)
      from by simp [parBlockLines]]
    rw [List.cons_append, buildParagraphs_cons_blank [] rfl]
    rw [List.append_assoc, buildParagraphs_block (pySplitlines q.contents)
      (fun l hl => (hlines l hl).2) _ []]
    rw [List.nil_append,
      ih (fun x hx => hgood x (List.mem_cons_of_mem q hx)) T (pySplitlines q.contents) hT]
    rw [if_neg hlines_ne]
    have hq : (⟨joinNl (pySplitlines q.contents)⟩ : Paragraph) = q := by
      rw [← hjoin]
    rw [hq]
    simp

theorem flatMap_secLines_shape (secs : List Section)
    (h : ∀ sec ∈ secs, ∃ nm, sec.name = some nm) :
    secs.flatMap secLines = [] ∨ ∃ T', secs.flatMap secLines = [] :: T' := by
  cases secs with
  | nil => exact Or.inl rfl
  | cons sec secs =>
    obtain ⟨nm, hnm⟩ := h sec (List.mem_cons_self _ _)
    right
    rw [List.flatMap_cons, show secLines sec = [] :: [] :: header_line_full ::
      header_line_empty :: titleLine nm :: header_line_empty :: header_line_full ::
      parBlockLines sec.paragraphs from by simp [secLines, hnm]]
    exact ⟨_, rfl⟩

/-- Re-grouping a chain of named sections' lines: each banner is
recovered as a paragraph, followed by the section's own paragraphs. -/
theorem bp_sections : ∀ (secs : List Section),
    (∀ sec ∈ secs, (∃ nm, sec.name = some nm ∧ WFname nm) ∧
      ∀ p ∈ sec.paragraphs, GoodPar p) →
    ∀ acc, buildParagraphs (secs.flatMap secLines) acc =
      (if acc = [] then [] else [⟨joinNl acc⟩]) ++ secs.flatMap specParas := by
  intro secs
  induction secs with
  | nil =>
    intro _ acc
    simp only [List.flatMap_nil, buildParagraphs_nil]
    simp
  | cons sec secs ih =>
    intro h acc
    obtain ⟨⟨nm, hnm, hwf⟩, hgood⟩ := h sec (List.mem_cons_self _ _)
    have htail := fun x hx => h x (List.mem_cons_of_mem sec hx)
    rw [List.flatMap_cons, show secLines sec = [] :: [] :: header_line_full ::
      header_line_empty :: titleLine nm :: header_line_empty :: header_line_full ::
      parBlockLines sec.paragraphs from by simp [secLines, hnm]]
    rw [List.cons_append, buildParagraphs_cons_blank [] rfl]
    rw [List.cons_append, buildParagraphs_cons_blank [] rfl, if_pos rfl, List.nil_append]
    rw [show (header_line_full :: header_line_empty :: titleLine nm :: header_line_empty ::
        header_line_full :: parBlockLines sec.paragraphs) ++ secs.flatMap secLines =
      bannerLines nm ++ (parBlockLines sec.paragraphs ++ secs.flatMap secLines) from by
      simp [bannerLines]]
    rw [buildParagraphs_block (bannerLines nm) (bannerLines_not_blank nm hwf.2.1),
      List.nil_append]
    rw [bp_parBlock sec.paragraphs hgood (secs.flatMap secLines) (bannerLines nm)
      (flatMap_secLines_shape secs (fun x hx => ((htail x hx).1).imp (fun _ hh => hh.1)))]
    have hbne : bannerLines nm ≠ [] := by simp [bannerLines]
    rw [if_neg hbne, ih htail [], if_pos rfl, List.nil_append]
    rw [show (⟨joinNl (bannerLines nm)⟩ : Paragraph) = bannerPar nm from rfl]
    rw [List.flatMap_cons, show specParas sec = bannerPar nm :: sec.paragraphs from by
      simp [specParas, hnm]]
    simp

/-! ## Re-parsing the output: section recovery -/

theorem bs_specParas : ∀ (secs : List Section),
    (∀ sec ∈ secs, (∃ nm, sec.name = some nm ∧ WFname nm) ∧
      ∀ p ∈ sec.paragraphs, headerName p = none) →
    ∀ cur, buildSections (secs.flatMap specParas) cur = cur :: secs := by
  intro secs
  induction secs with
  | nil => intro _ cur; rfl
  | cons sec secs ih =>
    intro h cur
    obtain ⟨⟨nm, hnm, hwf⟩, hnoh⟩ := h sec (List.mem_cons_self _ _)
    rw [List.flatMap_cons, show specParas sec = bannerPar nm :: sec.paragraphs from by
      simp [specParas, hnm]]
    rw [List.cons_append,
      buildSections_cons_header (headerName_bannerPar nm hwf.1 hwf.2.1 hwf.2.2)]
    rw [buildSections_append_ordinary sec.paragraphs hnoh,
      ih (fun x hx => h x (List.mem_cons_of_mem sec hx))]
    dsimp only
    rw [List.nil_append, ← hnm]

/-- Parsing the serialized output of a well-formed `Makefile` recovers its
sections exactly. -/
theorem reparse_sections (m : Makefile) (h : WF m) :
    (Makefile.init m.get_output).sections = m.sections := by
  obtain ⟨s0, rest, hsecs, hs0, hnames, hpars⟩ := h
  have hgood_all : ∀ sec ∈ m.sections, ∀ p ∈ sec.paragraphs, GoodPar p :=
    fun sec hs p hp => (hpars sec hs p hp).1
  have hout : m.get_output = unlines (m.sections.flatMap secLines) :=
    outputSections_eq m.sections hgood_all
  have hnl : ∀ l ∈ m.sections.flatMap secLines, '\n' ∉ l := by
    intro l hl
    rcases List.mem_flatMap.mp hl with ⟨sec, hsec, hlsec⟩
    refine secLines_no_nl sec ?_ l hlsec
    intro nm hnm
    rw [hsecs] at hsec
    rcases List.mem_cons.mp hsec with rfl | hsec'
    · rw [hs0] at hnm
      simp at hnm
    · obtain ⟨nm', hnm', hwf'⟩ := hnames sec hsec'
      rw [hnm'] at hnm
      injection hnm with hnm
      subst hnm
      exact hwf'.2.2
  have hplines : pySplitlines m.get_output = m.sections.flatMap secLines := by
    rw [hout]
    exact pySplitlines_unlines _ hnl
  have hsplit : m.sections.flatMap secLines =
      firstLines s0.paragraphs ++ rest.flatMap secLines := by
    rw [hsecs, List.flatMap_cons]
    congr 1
    simp [secLines, hs0]
  have hrest : ∀ sec ∈ rest, (∃ nm, sec.name = some nm ∧ WFname nm) ∧
      ∀ p ∈ sec.paragraphs, GoodPar p := by
    intro sec hsec
    exact ⟨hnames sec hsec, fun p hp =>
      (hpars sec (by rw [hsecs]; exact List.mem_cons_of_mem s0 hsec) p hp).1⟩
  have hs0good : ∀ p ∈ s0.paragraphs, GoodPar p :=
    fun p hp => (hpars s0 (by rw [hsecs]; exact List.mem_cons_self _ _) p hp).1
  have hbp : buildParagraphs (m.sections.flatMap secLines) [] =
      s0.paragraphs ++ rest.flatMap specParas := by
    rw [hsplit]
    cases hps0 : s0.paragraphs with
    | nil =>
      rw [show firstLines [] = [] from rfl, List.nil_append,
        bp_sections rest hrest [], if_pos rfl]
    | cons p more =>
      rw [show firstLines (p :: more) = pySplitlines p.contents ++ parBlockLines more
        from rfl]
      have hpGood : GoodPar p := hs0good p (by rw [hps0]; exact List.mem_cons_self _ _)
      have hmoreGood : ∀ q ∈ more, GoodPar q :=
        fun q hq => hs0good q (by rw [hps0]; exact List.mem_cons_of_mem p hq)
      obtain ⟨hne, hlns, hjoin⟩ := hpGood.lines
      rw [List.append_assoc, buildParagraphs_block (pySplitlines p.contents)
        (fun l hl => (hlns l hl).2), List.nil_append]
      rw [bp_parBlock more hmoreGood (rest.flatMap secLines) (pySplitlines p.contents)
        (flatMap_secLines_shape rest (fun x hx => (hnames x hx).imp (fun _ hh => hh.1)))]
      rw [if_neg hne,
        show (⟨joinNl (pySplitlines p.contents)⟩ : Paragraph) = p from by rw [← hjoin],
        bp_sections rest hrest [], if_pos rfl, List.nil_append]
      simp
  have hnoh0 : ∀ p ∈ s0.paragraphs, headerName p = none :=
    fun p hp => (hpars s0 (by rw [hsecs]; exact List.mem_cons_self _ _) p hp).2
  have hrest2 : ∀ sec ∈ rest, (∃ nm, sec.name = some nm ∧ WFname nm) ∧
      ∀ p ∈ sec.paragraphs, headerName p = none := by
    intro sec hsec
    exact ⟨hnames sec hsec, fun p hp =>
      (hpars sec (by rw [hsecs]; exact List.mem_cons_of_mem s0 hsec) p hp).2⟩
  have hsections : (Makefile.init m.get_output).sections = s0 :: rest := by
    show buildSections (buildParagraphs (pySplitlines m.get_output) []) ⟨none, []⟩ = _
    rw [hplines, hbp, buildSections_append_ordinary s0.paragraphs hnoh0,
      bs_specParas rest hrest2]
    dsimp only
    rw [List.nil_append, ← hs0]
  rw [hsections, hsecs]

/-! ## The spec-side banner predicate and lookup characterizations -/

/-- The spec's description of a well-formed 5-line banner header, as a
predicate on the physical lines: lines 1 and 5 are 80 `#` characters,
lines 2 and 4 are `#` + 78 spaces + `#`, line 3 is exactly 80 characters
beginning and ending with `#`. -/
def isBannerHeader (ls : List Str) : Bool :=
  decide (ls.length = 5) && decide (ls.getD 0 [] = List.replicate 80 '#') &&
  decide (ls.getD 1 [] = '#' :: (List.replicate 78 ' ' ++ ['#'])) &&
  decide ((ls.getD 2 []).length = 80) && decide ((ls.getD 2 []).head? = some '#') &&
  decide ((ls.getD 2 []).getLast? = some '#') &&
  decide (ls.getD 3 [] = '#' :: (List.replicate 78 ' ' ++ ['#'])) &&
  decide (ls.getD 4 [] = List.replicate 80 '#')

/-- The code's banner test agrees with the spec's banner shape. -/
theorem headerName_isSome_iff (p : Paragraph) :
    (headerName p).isSome = isBannerHeader (pySplitlines p.contents) := by
  unfold headerName isBannerHeader
  set ls := pySplitlines p.contents with hls
  by_cases hcond : ls.length = 5 ∧ ls.getD 0 [] = header_line_full ∧
      ls.getD 1 [] = header_line_empty ∧ (ls.getD 2 []).length = 80 ∧
      (ls.getD 2 []).head? = some '#' ∧ (ls.getD 2 []).getLast? = some '#' ∧
      ls.getD 3 [] = header_line_empty ∧ ls.getD 4 [] = header_line_full
  · rw [if_pos hcond]
    obtain ⟨h1, h2, h3, h4, h5, h6, h7, h8⟩ := hcond
    simp only [Option.isSome_some]
    symm
    simp only [Bool.and_eq_true, decide_eq_true_eq]
    exact ⟨⟨⟨⟨⟨⟨⟨h1, h2.trans rfl⟩, h3.trans rfl⟩, h4⟩, h5⟩, h6⟩, h7.trans rfl⟩, h8.trans rfl⟩
  · rw [if_neg hcond]
    simp only [Option.isSome_none]
    symm
    rw [← Bool.not_eq_true]
    intro hIB
    apply hcond
    simp only [Bool.and_eq_true, decide_eq_true_eq] at hIB
    obtain ⟨⟨⟨⟨⟨⟨⟨h1, h2⟩, h3⟩, h4⟩, h5⟩, h6⟩, h7⟩, h8⟩ := hIB
    exact ⟨h1, h2.trans rfl, h3.trans rfl, h4, h5, h6, h7.trans rfl, h8.trans rfl⟩

/-- The spec's description of `find_assigns`: in document order, the
(section, paragraph-index) pairs of paragraphs having a logical line whose
text before the first `'='`, trimmed of whitespace, equals `name`. -/
def specAssigns (m : Makefile) (name : Str) : List (Section × Nat) :=
  m.sections.flatMap (fun sec =>
    ((sec.paragraphs.enum).filter (fun ip =>
      decide (∃ line ∈ ip.2.get_logical_lines,
        pyStrip (line.takeWhile (fun c => c ≠ '=')) = name))).map (fun ip => (sec, ip.1)))

theorem assignParMatch_iff (name : Str) (p : Paragraph) :
    assignParMatch name p = true ↔
      ∃ line ∈ p.get_logical_lines,
        pyStrip (line.takeWhile (fun c => c ≠ '=')) = name := by
  unfold assignParMatch assignLineMatch splitEqHead
  rw [List.any_eq_true]
  constructor
  · rintro ⟨line, hline, hmatch⟩
    exact ⟨line, hline, by simpa using hmatch⟩
  · rintro ⟨line, hline, hmatch⟩
    exact ⟨line, hline, by simpa using hmatch⟩

theorem findAssignsPars_eq (name : Str) (sec : Section) :
    ∀ (ps : List Paragraph) (i : Nat),
      findAssignsPars name sec i ps =
        ((ps.enumFrom i).filter (fun ip =>
          decide (∃ line ∈ ip.2.get_logical_lines,
            pyStrip (line.takeWhile (fun c => c ≠ '=')) = name))).map
          (fun ip => (sec, ip.1)) := by
  intro ps
  induction ps with
  | nil => intro i; rfl
  | cons p ps ih =>
    intro i
    rw [List.enumFrom_cons, List.filter_cons]
    by_cases hm : assignParMatch name p = true
    · rw [if_pos (by rw [decide_eq_true_eq]; exact (assignParMatch_iff name p).mp hm)]
      rw [show findAssignsPars name sec i (p :: ps) =
        (sec, i) :: findAssignsPars name sec (i + 1) ps from by
          simp only [findAssignsPars, if_pos hm]]
      rw [ih (i + 1), List.map_cons]
    · rw [if_neg (by
        rw [decide_eq_true_eq]
        intro hex
        exact hm ((assignParMatch_iff name p).mpr hex))]
      rw [show findAssignsPars name sec i (p :: ps) =
        findAssignsPars name sec (i + 1) ps from by
          simp only [findAssignsPars, if_neg hm]]
      exact ih (i + 1)

theorem find_assigns_eq_spec (m : Makefile) (name : Str) :
    m.find_assigns name = specAssigns m name := by
  show findAssignsSecs name m.sections = _
  unfold specAssigns
  induction m.sections with
  | nil => rfl
  | cons sec secs ih =>
    rw [List.flatMap_cons, show findAssignsSecs name (sec :: secs) =
      findAssignsPars name sec 0 sec.paragraphs ++ findAssignsSecs name secs from rfl]
    rw [findAssignsPars_eq name sec sec.paragraphs 0, ih]
    rfl

/-! ## `find_targets` never raises on parsed input -/

theorem anyOpt_ne_none {α : Type} {f : α → Option Bool} {l : List α}
    (h : ∀ x ∈ l, f x ≠ none) : anyOpt f l ≠ none := by
  induction l with
  | nil => simp [anyOpt]
  | cons x xs ih =>
    simp only [anyOpt]
    rcases hf : f x with _ | b
    · exact absurd hf (h x (List.mem_cons_self _ _))
    · cases b
      · exact ih (fun y hy => h y (List.mem_cons_of_mem _ hy))
      · simp

theorem anyOpt_some_true_iff {α : Type} (f : α → Option Bool) :
    ∀ (l : List α), (∀ x ∈ l, f x ≠ none) →
      (anyOpt f l = some true ↔ ∃ x ∈ l, f x = some true) := by
  intro l
  induction l with
  | nil => intro _; simp [anyOpt]
  | cons x xs ih =>
    intro h
    simp only [anyOpt]
    rcases hf : f x with _ | b
    · exact absurd hf (h x (List.mem_cons_self _ _))
    · cases b
      · rw [ih (fun y hy => h y (List.mem_cons_of_mem _ hy))]
        constructor
        · rintro ⟨y, hy, hfy⟩
          exact ⟨y, List.mem_cons_of_mem _ hy, hfy⟩
        · rintro ⟨y, hy, hfy⟩
          rcases List.mem_cons.mp hy with rfl | hy'
          · rw [hf] at hfy
            simp at hfy
          · exact ⟨y, hy', hfy⟩
      · constructor
        · intro _
          exact ⟨x, List.mem_cons_self _ _, hf⟩
        · intro _
          rfl

theorem targetLineMatch_ne_none (name line : Str) (h : pyStrip line ≠ []) :
    targetLineMatch name line ≠ none := by
  unfold targetLineMatch
  rcases hws : pySplitWs line with _ | ⟨t, ts⟩
  · exact absurd hws (pySplitWs_ne_nil line h)
  · simp

theorem GoodPar.logical_not_blank {p : Paragraph} (h : GoodPar p) :
    ∀ line ∈ p.get_logical_lines, pyStrip line ≠ [] := by
  obtain ⟨pl, hne, hl, hc⟩ := h
  show ∀ line ∈ pySplitlines (removeContinuations p.contents), _
  rw [hc]
  exact logical_lines_not_blank pl hl

theorem findTargetsPars_ne_none (name : Str) (sec : Section) :
    ∀ (ps : List Paragraph) (i : Nat),
      (∀ p ∈ ps, ∀ line ∈ p.get_logical_lines, pyStrip line ≠ []) →
      findTargetsPars name sec i ps ≠ none := by
  intro ps
  induction ps with
  | nil => intro i _; simp [findTargetsPars]
  | cons p ps ih =>
    intro i h
    simp only [findTargetsPars]
    rcases hao : anyOpt (targetLineMatch name) p.get_logical_lines with _ | b
    · exact absurd hao (anyOpt_ne_none (fun line hline =>
        targetLineMatch_ne_none name line (h p (List.mem_cons_self _ _) line hline)))
    · rcases hrec : findTargetsPars name sec (i + 1) ps with _ | r
      · exact absurd hrec (ih (i + 1) (fun q hq => h q (List.mem_cons_of_mem p hq)))
      · simp

theorem findTargetsSecs_ne_none (name : Str) :
    ∀ (secs : List Section),
      (∀ sec ∈ secs, ∀ p ∈ sec.paragraphs, ∀ line ∈ p.get_logical_lines,
        pyStrip line ≠ []) →
      findTargetsSecs name secs ≠ none := by
  intro secs
  induction secs with
  | nil => intro _; simp [findTargetsSecs]
  | cons sec secs ih =>
    intro h
    simp only [findTargetsSecs]
    rcases hp : findTargetsPars name sec 0 sec.paragraphs with _ | r
    · exact absurd hp (findTargetsPars_ne_none name sec sec.paragraphs 0
        (h sec (List.mem_cons_self _ _)))
    · rcases hrec : findTargetsSecs name secs with _ | r'
      · exact absurd hrec (ih (fun s hs => h s (List.mem_cons_of_mem sec hs)))
      · simp

/-! ## The claims -/

/-- C1: one serialization pass reaches a fixed point: if `T2` is the
output of the `Makefile` built from `T`, then the `Makefile` built from
`T2` serializes to exactly `T2`, even when `T2 ≠ T`. -/
theorem c1_serialization_fixed_point (T : Str) :
    (Makefile.init ((Makefile.init T).get_output)).get_output =
      (Makefile.init T).get_output := by
  show outputSections (Makefile.init ((Makefile.init T).get_output)).sections = _
  rw [reparse_sections (Makefile.init T) (WF_init T)]
  rfl

/-- C2: for input whose paragraph sequence contains exactly `k`
well-formed 5-line banner headers, the document has exactly `k + 1`
sections: the unnamed leading one followed by one named section per
header, in input order. -/
theorem c2_section_count (T : Str) :
    (Makefile.init T).sections.length = 1 +
      ((buildParagraphs (pySplitlines T) []).countP
        (fun p => isBannerHeader (pySplitlines p.contents))) ∧
    (Makefile.init T).sections.map Section.name =
      none :: ((buildParagraphs (pySplitlines T) []).filterMap headerName).map some := by
  have hsec : (Makefile.init T).sections =
      buildSections (buildParagraphs (pySplitlines T) []) ⟨none, []⟩ := rfl
  have hmn := buildSections_map_name (buildParagraphs (pySplitlines T) []) ⟨none, []⟩
  refine ⟨?_, by rw [hsec]; exact hmn⟩
  have hlen : ((Makefile.init T).sections.map Section.name).length =
      (none :: ((buildParagraphs (pySplitlines T) []).filterMap headerName).map
        some).length := by
    rw [hsec, hmn]
  simp only [List.length_map, List.length_cons] at hlen
  rw [hlen, List.length_filterMap_eq_countP]
  rw [Nat.add_comm]
  congr 1
  refine List.countP_congr ?_
  intro p _
  rw [headerName_isSome_iff p]

/-- C3: during construction a paragraph starts a new section exactly when
it has the 5-line banner shape (80 `#`s, `#`+78 spaces+`#`, an 80-char
`#`-bordered title, and the two mirror lines); any paragraph failing the
test is appended unchanged to the current section, and construction is a
total function. -/
theorem c3_header_test_iff (p : Paragraph) :
    ((headerName p).isSome = isBannerHeader (pySplitlines p.contents)) ∧
    (∀ (ps : List Paragraph) (cur : Section), headerName p = none →
      buildSections (p :: ps) cur =
        buildSections ps ⟨cur.name, cur.paragraphs ++ [p]⟩) :=
  ⟨headerName_isSome_iff p, fun ps cur h => buildSections_cons_ordinary h ps cur⟩

/-- C4: `find_assigns name` returns, in document order, exactly the
(section, paragraph-index) pairs of paragraphs with a logical line whose
text before the first `'='`, trimmed of whitespace, equals `name`; for
the single paragraph `"FOO = 1\nBAR = 2"` it returns one hit at index 0
of the unnamed leading section for `"FOO"`, and the empty list for
`"BAZ"`. -/
theorem c4_find_assigns :
    (∀ (m : Makefile) (name : Str), m.find_assigns name = specAssigns m name) ∧
    (Makefile.init (str "FOO = 1\nBAR = 2")).find_assigns (str "FOO") =
      [(⟨none, [⟨str "FOO = 1\nBAR = 2"⟩]⟩, 0)] ∧
    (Makefile.init (str "FOO = 1\nBAR = 2")).find_assigns (str "BAZ") = [] :=
  ⟨find_assigns_eq_spec, by decide, by decide⟩

/-- C5: a paragraph matches `find_targets name` exactly when some logical
line's first whitespace-delimited token is the literal concatenation of
`name` and `':'`; `"build: dep1 dep2"` gives one hit for `"build"` and
none for `"buil"`, and `"build : dep1"` (space before the colon) gives no
hit for `"build"`. -/
theorem c5_find_targets :
    (∀ (name : Str) (p : Paragraph),
      (∀ l ∈ p.get_logical_lines, pyStrip l ≠ []) →
      (anyOpt (targetLineMatch name) p.get_logical_lines = some true ↔
        ∃ line ∈ p.get_logical_lines,
          (pySplitWs line).head? = some (name ++ [':']))) ∧
    (Makefile.init (str "build: dep1 dep2")).find_targets (str "build") =
      some [(⟨none, [⟨str "build: dep1 dep2"⟩]⟩, 0)] ∧
    (Makefile.init (str "build: dep1 dep2")).find_targets (str "buil") = some [] ∧
    (Makefile.init (str "build : dep1")).find_targets (str "build") = some [] := by
  refine ⟨?_, by decide, by decide, by decide⟩
  intro name p hnb
  rw [anyOpt_some_true_iff (targetLineMatch name) p.get_logical_lines
    (fun line hline => targetLineMatch_ne_none name line (hnb line hline))]
  constructor
  · rintro ⟨line, hline, hmatch⟩
    refine ⟨line, hline, ?_⟩
    unfold targetLineMatch at hmatch
    rcases hws : pySplitWs line with _ | ⟨t, ts⟩
    · rw [hws] at hmatch
      simp at hmatch
    · rw [hws] at hmatch
      have ht : t = name ++ [':'] := by simpa using hmatch
      rw [List.head?_cons, ht]
  · rintro ⟨line, hline, hhead⟩
    refine ⟨line, hline, ?_⟩
    unfold targetLineMatch
    rcases hws : pySplitWs line with _ | ⟨t, ts⟩
    · rw [hws] at hhead
      simp at hhead
    · rw [hws] at hhead
      rw [List.head?_cons, Option.some_inj] at hhead
      simp [hhead]

/-- C7: `get_logical_lines` is the line-split of the contents after the
single-pass removal of each backslash-newline occurrence, so physical
lines ending in a continuation marker are joined to the following line by
exact concatenation with no inserted space; the operation is a total
function of the contents. -/
theorem c7_logical_lines (ls : List Str) (h : ∀ l ∈ ls, l ≠ [] ∧ '\n' ∉ l) :
    Paragraph.get_logical_lines ⟨joinNl ls⟩ = logicalJoinSpec ls ∧
    (∀ contents : Str, Paragraph.get_logical_lines ⟨contents⟩ =
      pySplitlines (removeContinuations contents)) := by
  refine ⟨?_, fun contents => rfl⟩
  exact removeContinuations_joinNl ls (fun l hl => ⟨(h l hl).2, (h l hl).1⟩)

/-- C7 witness: the spec's example `"A = 1 \\\nB = 2"` yields the single
logical line `"A = 1 B = 2"` (exact concatenation, no inserted space). -/
theorem c7_logical_lines_witness :
    Paragraph.get_logical_lines ⟨joinNl [str "A = 1 \\", str "B = 2"]⟩ =
      [str "A = 1 B = 2"] := by
  rw [(c7_logical_lines [str "A = 1 \\", str "B = 2"] (by decide)).1]
  decide

/-- C8: concatenating the paragraph lists of all sections, in order,
yields exactly the blank-line-grouped paragraph sequence with every
banner-header paragraph removed, in the same relative order. -/
theorem c8_paragraph_partition (T : Str) :
    (Makefile.init T).sections.flatMap Section.paragraphs =
      (buildParagraphs (pySplitlines T) []).filter
        (fun p => (headerName p).isNone) := by
  show (buildSections (buildParagraphs (pySplitlines T) []) ⟨none, []⟩).flatMap
    Section.paragraphs = _
  rw [buildSections_flatMap]
  rfl

/-- C9: in a freshly parsed `Makefile` every logical line of every stored
paragraph is non-blank, so the first whitespace-delimited token in
`find_targets` is always defined and `find_targets` never raises. -/
theorem c9_find_targets_total (T name : Str) :
    ((Makefile.init T).find_targets name).isSome = true ∧
    (∀ sec ∈ (Makefile.init T).sections, ∀ p ∈ sec.paragraphs,
      ∀ line ∈ p.get_logical_lines, pyStrip line ≠ []) := by
  obtain ⟨s0, rest, hsecs, hs0, hnames, hpars⟩ := WF_init T
  have hnb : ∀ sec ∈ (Makefile.init T).sections, ∀ p ∈ sec.paragraphs,
      ∀ line ∈ p.get_logical_lines, pyStrip line ≠ [] :=
    fun sec hs p hp => (hpars sec hs p hp).1.logical_not_blank
  exact ⟨Option.isSome_iff_ne_none.mpr (findTargetsSecs_ne_none name _ hnb), hnb⟩

/-- C10: `find_assigns` also matches via a logical line with no `'='` at
all, whenever the whole line trimmed of whitespace equals the name: the
paragraph `"FOO"` is returned by `find_assigns "FOO"` despite containing
no assignment. -/
theorem c10_assign_matches_without_eq :
    (∀ (name : Str) (p : Paragraph),
      (∃ line ∈ p.get_logical_lines, '=' ∉ line ∧ pyStrip line = name) →
      assignParMatch name p = true) ∧
    (Makefile.init (str "FOO")).find_assigns (str "FOO") =
      [(⟨none, [⟨str "FOO"⟩]⟩, 0)] := by
  constructor
  · rintro name p ⟨line, hline, hno, hstrip⟩
    rw [assignParMatch_iff name p]
    refine ⟨line, hline, ?_⟩
    have htake : line.takeWhile (fun c => c ≠ '=') = line := by
      rw [List.takeWhile_eq_self_iff]
      intro a ha
      exact decide_eq_true (fun he => hno (he ▸ ha))
    rw [htake, hstrip]
  · decide

theorem header_line_full_no_nl : '\n' ∉ header_line_full := fun hm =>
  absurd (List.eq_of_mem_replicate hm) (by decide)

theorem header_line_empty_no_nl : '\n' ∉ header_line_empty := by
  intro hm
  rcases List.mem_cons.mp hm with h1 | h1
  · exact absurd h1 (by decide)
  · rcases List.mem_append.mp h1 with h2 | h2
    · exact absurd (List.eq_of_mem_replicate h2) (by decide)
    · rw [List.mem_singleton] at h2
      exact absurd h2 (by decide)

/-- C6 fails as stated: the name `"a\nb"` has length 3 and no
leading/trailing whitespace, yet re-parsing the serialized document does
not recover a section with that name (the newline breaks the banner into
six lines, which the header test rejects). -/
theorem c6_counterexample :
    pyStrip (str "a\nb") = str "a\nb" ∧ (str "a\nb").length ≤ 78 ∧
    ¬ ((Makefile.init (Makefile.get_output
        ⟨[], [⟨none, []⟩, ⟨some (str "a\nb"), []⟩]⟩)).sections.map Section.name =
      [none, some (str "a\nb")]) := by
  refine ⟨by decide, by decide, ?_⟩
  decide

/-- C6 (amended): for every section name `N` with `0 ≤ length N ≤ 78`, no
leading/trailing whitespace, and no newline character, `get_output` emits
a banner whose third line is exactly 80 characters: `'#'`, then
`(78 - length N) / 2` spaces, then `N`, then the remaining
`(78 - length N) - (78 - length N) / 2` spaces (the extra space of an odd
leftover on the right), then `'#'`; and re-parsing that output recovers a
section with the same name `N`. -/
theorem c6_banner_centering (nm : Str) (h1 : pyStrip nm = nm) (h2 : nm.length ≤ 78)
    (h3 : '\n' ∉ nm) :
    titleLine nm = '#' :: (List.replicate ((78 - nm.length) / 2) ' ' ++ (nm ++
      (List.replicate (78 - nm.length - (78 - nm.length) / 2) ' ' ++ ['#']))) ∧
    (titleLine nm).length = 80 ∧
    pySplitlines (Makefile.get_output ⟨[], [⟨none, []⟩, ⟨some nm, []⟩]⟩) =
      [[], [], header_line_full, header_line_empty, titleLine nm, header_line_empty,
        header_line_full] ∧
    (Makefile.init (Makefile.get_output ⟨[], [⟨none, []⟩,
      ⟨some nm, []⟩]⟩)).sections.map Section.name = [none, some nm] := by
  have hwf : WF ⟨[], [⟨none, []⟩, ⟨some nm, []⟩]⟩ := by
    refine ⟨⟨none, []⟩, [⟨some nm, []⟩], rfl, rfl, ?_, ?_⟩
    · intro sec hsec
      rw [List.mem_singleton] at hsec
      subst hsec
      exact ⟨nm, rfl, h1, h2, h3⟩
    · intro sec hsec p hp
      rcases List.mem_cons.mp hsec with rfl | hsec'
      · simp at hp
      · rw [List.mem_singleton] at hsec'
        subst hsec'
        simp at hp
  have hout : Makefile.get_output ⟨[], [⟨none, []⟩, ⟨some nm, []⟩]⟩ =
      unlines [[], [], header_line_full, header_line_empty, titleLine nm,
        header_line_empty, header_line_full] := by
    show outputSections [⟨none, []⟩, ⟨some nm, []⟩] = _
    rw [outputSections_eq _ (fun sec hsec p hp => by
      rcases List.mem_cons.mp hsec with rfl | hsec'
      · simp at hp
      · rw [List.mem_singleton] at hsec'
        subst hsec'
        simp at hp)]
    congr 1
  have hlines : pySplitlines (Makefile.get_output
      ⟨[], [⟨none, []⟩, ⟨some nm, []⟩]⟩) =
      [[], [], header_line_full, header_line_empty, titleLine nm, header_line_empty,
        header_line_full] := by
    rw [hout]
    refine pySplitlines_unlines _ ?_
    intro l hl
    rcases List.mem_cons.mp hl with rfl | hl
    · simp
    rcases List.mem_cons.mp hl with rfl | hl
    · simp
    rcases List.mem_cons.mp hl with rfl | hl
    · exact header_line_full_no_nl
    rcases List.mem_cons.mp hl with rfl | hl
    · exact header_line_empty_no_nl
    rcases List.mem_cons.mp hl with rfl | hl
    · exact titleLine_no_nl nm h3
    rcases List.mem_cons.mp hl with rfl | hl
    · exact header_line_empty_no_nl
    rcases List.mem_cons.mp hl with rfl | hl
    · exact header_line_full_no_nl
    simp at hl
  refine ⟨titleLine_eq_nat nm h2, titleLine_length nm h2, hlines, ?_⟩
  rw [reparse_sections _ hwf]
  rfl

/-- C6 witness: the spec's example name `"BUILD TARGETS"` round-trips. -/
theorem c6_banner_centering_witness :
    (Makefile.init (Makefile.get_output ⟨[], [⟨none, []⟩,
      ⟨some (str "BUILD TARGETS"), []⟩]⟩)).sections.map Section.name =
      [none, some (str "BUILD TARGETS")] :=
  (c6_banner_centering (str "BUILD TARGETS") (by decide) (by decide)
    (by decide)).2.2.2
